import Mathlib

/-!
Verification of the core of `npm-compromise-scan`: the denylist-entry
parser (`parse_compromised_entry`, `parse_compromised_file`) and the
dependency-tree matcher (`collect_deps`, `traverse`, `find_matches`),
shallowly embedded from `src/main.rs`.  Strings are modelled as `List Char`
(Rust `&str`/`String`); `HashSet`s are modelled as duplicate-free insertion
into lists, with membership as the set operation the code relies on.
-/

deriving instance DecidableEq for Except

namespace NpmScan

/-- A resolved package occurrence, `struct Dep { name, version }`. -/
structure Dep where
  name : List Char
  version : List Char
deriving DecidableEq, Repr

/-- The parsed denylist, `struct Lists { exact, names }`.  The Rust
`HashSet`s are modelled as lists inserted into without duplication;
the code only uses membership. -/
structure Lists where
  exact : List (List Char × List Char)
  names : List (List Char)
deriving DecidableEq, Repr

/-- An output record, `struct MatchRecord { match_type, name, version }`. -/
structure MatchRecord where
  match_type : List Char
  name : List Char
  version : List Char
deriving DecidableEq, Repr

/-- Result alternatives of `parse_compromised_entry` (`enum CompEntry`). -/
inductive CompEntry where
  | Name (name : List Char)
  | Exact (name : List Char) (version : List Char)
  | Invalid (reason : List Char)
deriving DecidableEq, Repr

/-- ASCII apostrophe, used inside two diagnostic strings. -/
def quoteChar : Char := Char.ofNat 39

/-- Reason string `"Too many @ characters for unscoped package"`. -/
def tooManyAtMsg : List Char := "Too many @ characters for unscoped package".toList

/-- Reason string `"Empty name part"`. -/
def emptyNameMsg : List Char := "Empty name part".toList

/-- Reason string `"Empty version part"`. -/
def emptyVersionMsg : List Char := "Empty version part".toList

/-- Reason string `"Version contains '/'"`. -/
def slashVersionMsg : List Char :=
  "Version contains ".toList ++ [quoteChar, '/', quoteChar]

/-- Reason string `"Version does not start with alphanumeric"`. -/
def notAlnumMsg : List Char := "Version does not start with alphanumeric".toList

/-- Rust `char::is_ascii_alphanumeric`: `0-9`, `A-Z` or `a-z`. -/
def isAsciiAlphanumeric (c : Char) : Bool :=
  (48 ≤ c.toNat && c.toNat ≤ 57) ||
  (65 ≤ c.toNat && c.toNat ≤ 90) ||
  (97 ≤ c.toNat && c.toNat ≤ 122)

/-- `ver_part.chars().next().map(|c| c.is_ascii_alphanumeric()).unwrap_or(false)`. -/
def versionStartsAlnum (v : List Char) : Bool :=
  match v.head? with
  | some c => isAsciiAlphanumeric c
  | none => false

/-- Split a line at its LAST `'@'` (Rust `line.rfind('@')` plus the two
slices `&line[..last_at]` and `&line[last_at+1..]`); `none` when the line
has no `'@'` at all (in the code the preceding checks guarantee one is
present, so `rfind` never actually fails). -/
def splitLastAt : List Char → Option (List Char × List Char)
  | [] => none
  | c :: rest =>
    match splitLastAt rest with
    | some (n, v) => some (c :: n, v)
    | none => if c = '@' then some ([], rest) else none

/-- `fn parse_compromised_entry(line: &str) -> CompEntry`.  Classifies a
trimmed, non-comment denylist line as a bare `Name`, an `Exact`
name-version pair, or `Invalid` with a reason.  The `none` fallback of the
split mirrors the unreachable `rfind('@').unwrap()` (the line is known to
contain `'@'` on that path). -/
def parse_compromised_entry (line : List Char) : CompEntry :=
  if '@' ∉ line then CompEntry.Name line
  else if line.head? = some '@' ∧ line.count '@' < 2 then
    CompEntry.Name line
  else if line.head? ≠ some '@' ∧ 1 < line.count '@' then
    CompEntry.Invalid tooManyAtMsg
  else
    match splitLastAt line with
    | some (namePart, verPart) =>
      if namePart = [] then CompEntry.Invalid emptyNameMsg
      else if verPart = [] then CompEntry.Invalid emptyVersionMsg
      else if '/' ∈ verPart then CompEntry.Invalid slashVersionMsg
      else if ¬ versionStartsAlnum verPart then CompEntry.Invalid notAlnumMsg
      else CompEntry.Exact namePart verPart
    | none => CompEntry.Name line

example : parse_compromised_entry "foo".toList = CompEntry.Name "foo".toList := by decide
example : parse_compromised_entry "foo@1.2.3".toList
    = CompEntry.Exact "foo".toList "1.2.3".toList := by decide
example : parse_compromised_entry "@scope/pkg@2.0.0".toList
    = CompEntry.Exact "@scope/pkg".toList "2.0.0".toList := by decide
example : parse_compromised_entry "@scope/pkg".toList
    = CompEntry.Name "@scope/pkg".toList := by decide
example : parse_compromised_entry "a@b@c".toList
    = CompEntry.Invalid tooManyAtMsg := by decide
example : parse_compromised_entry "foo@".toList
    = CompEntry.Invalid emptyVersionMsg := by decide
example : parse_compromised_entry "@foo".toList
    = CompEntry.Name "@foo".toList := by decide
example : parse_compromised_entry "foo@bar/baz".toList
    = CompEntry.Invalid slashVersionMsg := by decide
example : parse_compromised_entry "foo@/bar".toList
    = CompEntry.Invalid slashVersionMsg := by decide
example : parse_compromised_entry "foo@-bar".toList
    = CompEntry.Invalid notAlnumMsg := by decide

/-- Rust `str::trim`: drop whitespace from both ends of the line. -/
def trimChars (l : List Char) : List Char :=
  ((l.dropWhile Char.isWhitespace).reverse.dropWhile Char.isWhitespace).reverse

/-- Strip one trailing `'\r'`, as Rust `str::lines` does per line end. -/
def stripCR (l : List Char) : List Char :=
  match l.reverse with
  | '\r' :: rest => rest.reverse
  | _ => l

/-- Worker for `splitLines`: `cur` is the current line read so far,
in reverse. -/
def splitLinesGo (cur : List Char) : List Char → List (List Char)
  | [] => if cur = [] then [] else [cur.reverse]
  | c :: rest =>
    if c = '\n' then stripCR cur.reverse :: splitLinesGo [] rest
    else splitLinesGo (c :: cur) rest

/-- Rust `str::lines`: split on `'\n'`, dropping a final empty segment
produced by a trailing newline, and stripping one `'\r'` before each
`'\n'`. -/
def splitLines (s : List Char) : List (List Char) :=
  splitLinesGo [] s

/-- The error produced for an invalid denylist line: 1-based line number,
the offending line's trimmed text, and the reason
(`anyhow!("Invalid entry at line {}: '{}' ({})", lineno + 1, line, reason)`). -/
structure ParseError where
  lineno : Nat
  line : List Char
  reason : List Char
deriving DecidableEq, Repr

/-- `HashSet::insert` on the modelled name set. -/
def insertName (n : List Char) (names : List (List Char)) : List (List Char) :=
  if n ∈ names then names else n :: names

/-- `HashSet::insert` on the modelled exact set. -/
def insertExact (p : List Char × List Char) (ex : List (List Char × List Char)) :
    List (List Char × List Char) :=
  if p ∈ ex then ex else p :: ex

/-- The enumerated loop body of `parse_compromised_file`: `i` is the 0-based
index of the first line of `ls`, `acc` the sets built so far.  Blank and
`#`-comment lines are skipped; the first invalid line aborts with an error. -/
def parseLinesFrom (i : Nat) (ls : List (List Char)) (acc : Lists) :
    Except ParseError Lists :=
  match ls with
  | [] => Except.ok acc
  | raw :: rest =>
    let line := trimChars raw
    if line = [] ∨ line.head? = some '#' then
      parseLinesFrom (i + 1) rest acc
    else
      match parse_compromised_entry line with
      | CompEntry.Name n =>
        parseLinesFrom (i + 1) rest ⟨acc.exact, insertName n acc.names⟩
      | CompEntry.Exact n v =>
        parseLinesFrom (i + 1) rest ⟨insertExact (n, v) acc.exact, insertName n acc.names⟩
      | CompEntry.Invalid r =>
        Except.error ⟨i + 1, line, r⟩

/-- `fn parse_compromised_file` on the file's text content (file reading is
collaborator I/O outside the core). -/
def parse_compromised_file (content : List Char) : Except ParseError Lists :=
  parseLinesFrom 0 (splitLines content) ⟨[], []⟩

/-- What `parse_compromised_file`'s loop does to one raw line, as an
observation: `none` when the line is skipped or registers successfully,
`some reason` when it is invalid. -/
def lineError (raw : List Char) : Option (List Char) :=
  if trimChars raw = [] ∨ (trimChars raw).head? = some '#' then none
  else
    match parse_compromised_entry (trimChars raw) with
    | CompEntry.Invalid r => some r
    | _ => none

example : parse_compromised_file "foo@1.2.3\n# comment\n\nbar\n".toList
    = Except.ok ⟨[("foo".toList, "1.2.3".toList)], ["bar".toList, "foo".toList]⟩ := by
  rfl

example : parse_compromised_file "ok\na@b@c\nnever@seen\n".toList
    = Except.error ⟨2, "a@b@c".toList, tooManyAtMsg⟩ := by rfl

/-- `serde_json::Value`.  Number payloads are irrelevant to the scanner
(they are never inspected), so they are not carried. -/
inductive Json where
  | null
  | bool (b : Bool)
  | num
  | str (s : List Char)
  | arr (elems : List Json)
  | obj (fields : List (List Char × Json))

/-- The object key `"version"`. -/
def versionKey : List Char := "version".toList

/-- The object key `"dependencies"`. -/
def dependenciesKey : List Char := "dependencies".toList

/-- First field with the given key (serde maps have unique keys; on the
modelled association list `Value::get` takes the first). -/
def findField (k : List Char) : List (List Char × Json) → Option Json
  | [] => none
  | (k', v) :: rest => if k' = k then some v else findField k rest

/-- `node.get("version").and_then(|v| v.as_str())` on an object's fields. -/
def fieldStr (k : List Char) (fields : List (List Char × Json)) : Option (List Char) :=
  match findField k fields with
  | some (Json.str s) => some s
  | _ => none

/-- The mutable state threaded through `traverse`: the accumulator vector
and the `seen` set of `(name, version)` keys. -/
structure TravState where
  acc : List Dep
  seen : List (List Char × List Char)
deriving DecidableEq, Repr

/-- The part of `traverse` that records the node itself:
`if seen.insert(key) { acc.push(Dep {..}) }`, applied when the node has a
string `version` field (`none` means no such field: skip). -/
def recordDep (name : List Char) (ver : Option (List Char)) (st : TravState) : TravState :=
  match ver with
  | none => st
  | some v =>
    let key := (name, v)
    if key ∈ st.seen then st
    else ⟨st.acc ++ [⟨key.1, key.2⟩], key :: st.seen⟩

mutual

/-- `fn traverse(name, node, acc, seen)`: record the node's own
`(name, version)` if it has a string version, then recurse into its
`"dependencies"` object, if any. -/
def traverse (name : List Char) (node : Json) (st : TravState) : TravState :=
  match node with
  | Json.obj fields => traverseDeps fields (recordDep name (fieldStr versionKey fields) st)
  | _ => st

/-- Find the first `"dependencies"` field (as `Value::get` does) and hand
its value to `traverseChildren`. -/
def traverseDeps (fields : List (List Char × Json)) (st : TravState) : TravState :=
  match fields with
  | [] => st
  | (k, v) :: rest =>
    if k = dependenciesKey then traverseChildren v st
    else traverseDeps rest st

/-- `.and_then(|d| d.as_object())` on the `"dependencies"` value: traverse
the entries when it is an object, skip otherwise. -/
def traverseChildren (v : Json) (st : TravState) : TravState :=
  match v with
  | Json.obj children => traverseList children st
  | _ => st

/-- Traverse every `(name, node)` entry of a dependencies object in order. -/
def traverseList (entries : List (List Char × Json)) (st : TravState) : TravState :=
  match entries with
  | [] => st
  | (n, c) :: rest => traverseList rest (traverse n c st)

end

example : traverse "a".toList (Json.obj [(versionKey, Json.str "1".toList)]) ⟨[], []⟩
    = ⟨[⟨"a".toList, "1".toList⟩], [("a".toList, "1".toList)]⟩ := by rfl

/-- The invariant linking the accumulator to the `seen` set: the
accumulator holds pairwise-distinct dependencies, each of whose keys has
been marked seen. -/
def StInv (st : TravState) : Prop :=
  st.acc.Nodup ∧ ∀ d ∈ st.acc, (d.name, d.version) ∈ st.seen

/-- The §3 invariant of a parsed denylist: every name of an exact pair is
also a bare-name member. -/
def ListsInv (L : Lists) : Prop :=
  ∀ n v, (n, v) ∈ L.exact → n ∈ L.names

/-- The derived `Ord` of `struct Dep`: lexicographic on `(name, version)`,
each string compared by ordinary lexicographic comparison (Mathlib's
`List.Lex` on `Char`, which agrees with Rust's byte-wise string order). -/
def depLe (x y : Dep) : Prop :=
  x.name < y.name ∨ (x.name = y.name ∧ x.version ≤ y.version)

instance : DecidableRel depLe := fun x y => by
  unfold depLe
  infer_instance

instance : IsTotal Dep depLe := by
  constructor
  intro x y
  rcases lt_trichotomy x.name y.name with h | h | h
  · exact Or.inl (Or.inl h)
  · rcases le_total x.version y.version with hv | hv
    · exact Or.inl (Or.inr ⟨h, hv⟩)
    · exact Or.inr (Or.inr ⟨h.symm, hv⟩)
  · exact Or.inr (Or.inl h)

instance : IsTrans Dep depLe := by
  constructor
  intro x y z hxy hyz
  rcases hxy with h1 | ⟨h1, hv1⟩
  · rcases hyz with h2 | ⟨h2, _⟩
    · exact Or.inl (h1.trans h2)
    · exact Or.inl (h2 ▸ h1)
  · rcases hyz with h2 | ⟨h2, hv2⟩
    · exact Or.inl (h1 ▸ h2)
    · exact Or.inr ⟨h1.trans h2, hv1.trans hv2⟩

/-- The accumulation phase of `collect_deps`: start from empty `acc` and
`seen`, and when the root has a `"dependencies"` object
(`root.get("dependencies")` + `as_object`), traverse each of its entries. -/
def collectState (root : Json) : TravState :=
  match root with
  | Json.obj fields =>
    match findField dependenciesKey fields with
    | some (Json.obj top) => traverseList top ⟨[], []⟩
    | _ => (⟨[], []⟩ : TravState)
  | _ => (⟨[], []⟩ : TravState)

/-- `fn collect_deps(root: &Value) -> Result<Vec<Dep>>`: gather the unique
`(name, version)` occurrences from the root's `"dependencies"` object, then
`acc.sort()` (ascending by the derived `Dep` order) — and always `Ok`. -/
def collect_deps (root : Json) : Except (List Char) (List Dep) :=
  Except.ok (List.insertionSort depLe (collectState root).acc)

/-- The match string `"exact"`. -/
def exactType : List Char := "exact".toList

/-- The match string `"name"`. -/
def nameType : List Char := "name".toList

/-- The loop of `find_matches`, building the `MatchRecord` vector. -/
def findMatchesList (deps : List Dep) (lists : Lists) : List MatchRecord :=
  match deps with
  | [] => []
  | d :: rest =>
    if (d.name, d.version) ∈ lists.exact then
      ⟨exactType, d.name, d.version⟩ :: findMatchesList rest lists
    else if d.name ∈ lists.names then
      ⟨nameType, d.name, d.version⟩ :: findMatchesList rest lists
    else
      findMatchesList rest lists

/-- `fn find_matches(deps, lists) -> (Vec<MatchRecord>, bool)`: the records
plus `any = !matches.is_empty()`. -/
def find_matches (deps : List Dep) (lists : Lists) : List MatchRecord × Bool :=
  let ms := findMatchesList deps lists
  (ms, !ms.isEmpty)

/-- The specification's per-dependency classification rule (§4.2): `exact`
when the pair is denylisted exactly, otherwise `name` when the bare name is
denylisted, otherwise nothing.  Stated from the spec's words, to be compared
with `find_matches`. -/
def classifySpec (lists : Lists) (d : Dep) : Option MatchRecord :=
  if (d.name, d.version) ∈ lists.exact then some ⟨exactType, d.name, d.version⟩
  else if d.name ∈ lists.names then some ⟨nameType, d.name, d.version⟩
  else none

example :
    find_matches
      [⟨"event-stream".toList, "3.3.5".toList⟩,
       ⟨"event-stream".toList, "3.3.6".toList⟩,
       ⟨"left-pad".toList, "1.0.0".toList⟩]
      ⟨[("event-stream".toList, "3.3.6".toList)],
       ["left-pad".toList, "event-stream".toList]⟩
    = ([⟨nameType, "event-stream".toList, "3.3.5".toList⟩,
        ⟨exactType, "event-stream".toList, "3.3.6".toList⟩,
        ⟨nameType, "left-pad".toList, "1.0.0".toList⟩], true) := by decide

example :
    collect_deps (Json.obj [(dependenciesKey, Json.obj
      [("b".toList, Json.obj [(versionKey, Json.str "2".toList),
         (dependenciesKey, Json.obj
           [("a".toList, Json.obj [(versionKey, Json.str "1".toList)])])]),
       ("a".toList, Json.obj [(versionKey, Json.str "1".toList)])])])
    = Except.ok [⟨"a".toList, "1".toList⟩, ⟨"b".toList, "2".toList⟩] := by decide

/-! ## Theorems -/

theorem splitLastAt_isSome {l : List Char} (h : '@' ∈ l) :
    (splitLastAt l).isSome := by
  induction l with
  | nil => cases h
  | cons c rest ih =>
    simp only [splitLastAt]
    cases hr : splitLastAt rest with
    | some p => simp
    | none =>
      rcases List.mem_cons.mp h with rfl | hm
      · simp
      · have := ih hm
        rw [hr] at this
        cases this

theorem splitLastAt_spec : ∀ {l n v : List Char},
    splitLastAt l = some (n, v) → l = n ++ '@' :: v ∧ '@' ∉ v := by
  intro l
  induction l with
  | nil => intro n v h; cases h
  | cons c rest ih =>
    intro n v h
    simp only [splitLastAt] at h
    cases hr : splitLastAt rest with
    | some p =>
      rw [hr] at h
      obtain ⟨n', v'⟩ := p
      simp only [Option.some.injEq, Prod.mk.injEq] at h
      obtain ⟨rfl, rfl⟩ := h
      obtain ⟨h1, h2⟩ := ih hr
      constructor
      · simp [← h1]
      · exact h2
    | none =>
      rw [hr] at h
      by_cases hc : c = '@'
      · subst hc
        simp only [if_pos rfl, Option.some.injEq, Prod.mk.injEq] at h
        obtain ⟨rfl, rfl⟩ := h
        refine ⟨rfl, fun hm => ?_⟩
        have := splitLastAt_isSome hm
        rw [hr] at this
        cases this
      · rw [if_neg hc] at h
        cases h

theorem mem_insertName_self (n : List Char) (names : List (List Char)) :
    n ∈ insertName n names := by
  unfold insertName
  split
  · assumption
  · exact List.mem_cons_self _ _

theorem mem_insertName_of_mem {m : List Char} (n : List Char)
    {names : List (List Char)} (h : m ∈ names) : m ∈ insertName n names := by
  unfold insertName
  split
  · exact h
  · exact List.mem_cons_of_mem _ h

theorem mem_insertExact {p q : List Char × List Char}
    {ex : List (List Char × List Char)} (h : p ∈ insertExact q ex) :
    p = q ∨ p ∈ ex := by
  unfold insertExact at h
  split at h
  · exact Or.inr h
  · rcases List.mem_cons.mp h with h | h
    · exact Or.inl h
    · exact Or.inr h

theorem parseLinesFrom_inv :
    ∀ (ls : List (List Char)) (i : Nat) (acc L : Lists),
      ListsInv acc → parseLinesFrom i ls acc = Except.ok L → ListsInv L := by
  intro ls
  induction ls with
  | nil =>
    intro i acc L hinv h
    simp only [parseLinesFrom] at h
    injection h with h
    subst h
    exact hinv
  | cons raw rest ih =>
    intro i acc L hinv h
    simp only [parseLinesFrom] at h
    by_cases hc : trimChars raw = [] ∨ (trimChars raw).head? = some '#'
    · rw [if_pos hc] at h
      exact ih _ _ _ hinv h
    · rw [if_neg hc] at h
      cases hp : parse_compromised_entry (trimChars raw) with
      | Name n =>
        rw [hp] at h
        refine ih _ _ _ ?_ h
        intro n' v' hm
        exact mem_insertName_of_mem _ (hinv n' v' hm)
      | Exact n v =>
        rw [hp] at h
        refine ih _ _ _ ?_ h
        intro n' v' hm
        rcases mem_insertExact hm with heq | hm'
        · injection heq with h1 h2
          subst h1
          exact mem_insertName_self _ _
        · exact mem_insertName_of_mem _ (hinv n' v' hm')
      | Invalid r =>
        rw [hp] at h
        cases h

theorem parseLinesFrom_ok_step {raw : List Char} (h : lineError raw = none)
    (i : Nat) (rest : List (List Char)) (acc : Lists) :
    ∃ acc', parseLinesFrom i (raw :: rest) acc = parseLinesFrom (i + 1) rest acc' := by
  simp only [lineError] at h
  by_cases hc : trimChars raw = [] ∨ (trimChars raw).head? = some '#'
  · refine ⟨acc, ?_⟩
    simp only [parseLinesFrom]
    rw [if_pos hc]
  · rw [if_neg hc] at h
    cases hp : parse_compromised_entry (trimChars raw) with
    | Name n =>
      refine ⟨⟨acc.exact, insertName n acc.names⟩, ?_⟩
      simp only [parseLinesFrom]
      rw [if_neg hc, hp]
    | Exact n v =>
      refine ⟨⟨insertExact (n, v) acc.exact, insertName n acc.names⟩, ?_⟩
      simp only [parseLinesFrom]
      rw [if_neg hc, hp]
    | Invalid r =>
      rw [hp] at h
      cases h

theorem parseLinesFrom_clean_prefix :
    ∀ (pre : List (List Char)) (i : Nat) (acc : Lists) (tail : List (List Char)),
      (∀ l ∈ pre, lineError l = none) →
      ∃ acc', parseLinesFrom i (pre ++ tail) acc
        = parseLinesFrom (i + pre.length) tail acc' := by
  intro pre
  induction pre with
  | nil =>
    intro i acc tail _
    exact ⟨acc, by simp⟩
  | cons raw pre' ih =>
    intro i acc tail h
    obtain ⟨acc1, h1⟩ :=
      parseLinesFrom_ok_step (h raw (List.mem_cons_self _ _)) i (pre' ++ tail) acc
    obtain ⟨acc2, h2⟩ := ih (i + 1) acc1 tail (fun l hl => h l (List.mem_cons_of_mem _ hl))
    refine ⟨acc2, ?_⟩
    rw [List.cons_append, h1, h2]
    have heq : i + 1 + pre'.length = i + (raw :: pre').length := by
      simp only [List.length_cons]
      omega
    rw [heq]

theorem parseLinesFrom_error_step {raw r : List Char} (h : lineError raw = some r)
    (i : Nat) (rest : List (List Char)) (acc : Lists) :
    parseLinesFrom i (raw :: rest) acc = Except.error ⟨i + 1, trimChars raw, r⟩ := by
  simp only [lineError] at h
  by_cases hc : trimChars raw = [] ∨ (trimChars raw).head? = some '#'
  · rw [if_pos hc] at h
    cases h
  · rw [if_neg hc] at h
    simp only [parseLinesFrom]
    rw [if_neg hc]
    cases hp : parse_compromised_entry (trimChars raw) with
    | Name n =>
      rw [hp] at h
      cases h
    | Exact n v =>
      rw [hp] at h
      cases h
    | Invalid r' =>
      rw [hp] at h
      injection h with hr
      subst hr
      rfl

theorem stInv_recordDep (name : List Char) (ver : Option (List Char))
    (st : TravState) (h : StInv st) : StInv (recordDep name ver st) := by
  obtain ⟨hnd, hsub⟩ := h
  match ver with
  | none => exact ⟨hnd, hsub⟩
  | some v =>
    show StInv (if (name, v) ∈ st.seen then st else _)
    split
    · exact ⟨hnd, hsub⟩
    · next hnew =>
      refine ⟨?_, ?_⟩
      · rw [List.nodup_append]
        refine ⟨hnd, List.nodup_singleton _, ?_⟩
        intro d hd hmem
        simp only [List.mem_singleton] at hmem
        subst hmem
        exact hnew (hsub _ hd)
      · intro d hd
        rcases List.mem_append.mp hd with hd | hd
        · exact List.mem_cons_of_mem _ (hsub _ hd)
        · simp only [List.mem_singleton] at hd
          subst hd
          exact List.mem_cons_self _ _

mutual

theorem stInv_traverse (name : List Char) (node : Json) (st : TravState)
    (h : StInv st) : StInv (traverse name node st) := by
  match node with
  | Json.obj fields =>
    exact stInv_traverseDeps fields _ (stInv_recordDep name _ st h)
  | Json.null => exact h
  | Json.bool _ => exact h
  | Json.num => exact h
  | Json.str _ => exact h
  | Json.arr _ => exact h
termination_by sizeOf node

theorem stInv_traverseDeps (fields : List (List Char × Json)) (st : TravState)
    (h : StInv st) : StInv (traverseDeps fields st) := by
  match fields with
  | [] => exact h
  | (k, v) :: rest =>
    show StInv (if k = dependenciesKey then traverseChildren v st
      else traverseDeps rest st)
    split
    · exact stInv_traverseChildren v st h
    · exact stInv_traverseDeps rest st h
termination_by sizeOf fields

theorem stInv_traverseChildren (v : Json) (st : TravState)
    (h : StInv st) : StInv (traverseChildren v st) := by
  match v with
  | Json.obj children => exact stInv_traverseList children st h
  | Json.null => exact h
  | Json.bool _ => exact h
  | Json.num => exact h
  | Json.str _ => exact h
  | Json.arr _ => exact h
termination_by sizeOf v

theorem stInv_traverseList (entries : List (List Char × Json)) (st : TravState)
    (h : StInv st) : StInv (traverseList entries st) := by
  match entries with
  | [] => exact h
  | (n, c) :: rest =>
    exact stInv_traverseList rest _ (stInv_traverse n c st h)
termination_by sizeOf entries

end

theorem stInv_empty : StInv ⟨[], []⟩ :=
  ⟨List.nodup_nil, fun d hd => absurd hd (List.not_mem_nil d)⟩

theorem stInv_collectState (root : Json) : StInv (collectState root) := by
  cases root with
  | obj fields =>
    show StInv (match findField dependenciesKey fields with
      | some (Json.obj top) => traverseList top ⟨[], []⟩
      | _ => (⟨[], []⟩ : TravState))
    cases hf : findField dependenciesKey fields with
    | none => exact stInv_empty
    | some v =>
      cases v with
      | obj top => exact stInv_traverseList top _ stInv_empty
      | null => exact stInv_empty
      | bool b => exact stInv_empty
      | num => exact stInv_empty
      | str s => exact stInv_empty
      | arr es => exact stInv_empty
  | null => exact stInv_empty
  | bool b => exact stInv_empty
  | num => exact stInv_empty
  | str s => exact stInv_empty
  | arr es => exact stInv_empty

/-! ## Claims -/

/-- C1: classification assigns each flattened dependency at most one
`MatchRecord`, by the rule "`exact` if the pair is in the exact set,
otherwise `name` if the name is in the name set, otherwise none"
(`classifySpec`); records appear in input order (`filterMap` of the rule
over the input list); the returned boolean is true exactly when the record
list is non-empty; and a dependency in both sets is classified once, as
`exact`. -/
theorem claim_C1_classification (deps : List Dep) (lists : Lists) :
    (find_matches deps lists).1 = deps.filterMap (classifySpec lists) ∧
    ((find_matches deps lists).2 = true ↔ (find_matches deps lists).1 ≠ []) ∧
    (∀ d : Dep, (d.name, d.version) ∈ lists.exact →
      classifySpec lists d = some ⟨exactType, d.name, d.version⟩) := by
  refine ⟨?_, ?_, ?_⟩
  · show findMatchesList deps lists = _
    induction deps with
    | nil => rfl
    | cons d rest ih =>
      by_cases h1 : (d.name, d.version) ∈ lists.exact
      · simp only [findMatchesList, classifySpec, List.filterMap_cons, if_pos h1]
        rw [ih]
      · by_cases h2 : d.name ∈ lists.names
        · simp only [findMatchesList, classifySpec, List.filterMap_cons, if_neg h1,
            if_pos h2]
          rw [ih]
        · simp only [findMatchesList, classifySpec, List.filterMap_cons, if_neg h1,
            if_neg h2]
          exact ih
  · show (!(findMatchesList deps lists).isEmpty) = true ↔ findMatchesList deps lists ≠ []
    simp [List.isEmpty_iff]
  · intro d hd
    simp [classifySpec, hd]

/-- Witness for C1: the exact-over-name precedence clause applied to a
concrete dependency present in both sets. -/
theorem claim_C1_classification_witness :
    classifySpec
      ⟨[("event-stream".toList, "3.3.6".toList)], ["event-stream".toList]⟩
      ⟨"event-stream".toList, "3.3.6".toList⟩
      = some ⟨exactType, "event-stream".toList, "3.3.6".toList⟩ :=
  (claim_C1_classification []
    ⟨[("event-stream".toList, "3.3.6".toList)], ["event-stream".toList]⟩).2.2
    ⟨"event-stream".toList, "3.3.6".toList⟩ (by decide)

/-- C2: every flattened dependency list is duplicate-free (each
`(name, version)` pair occurs at most once) and sorted ascending by the
lexicographic `(name, version)` order; and a document in which the pair
`x@1` occurs twice and the name `x` also occurs at version `2` flattens to
exactly the two entries `x@1, x@2`. -/
theorem claim_C2_dedup_sorted :
    (∀ (root : Json) (l : List Dep), collect_deps root = Except.ok l →
      l.Nodup ∧ List.Sorted depLe l) ∧
    collect_deps (Json.obj [(dependenciesKey, Json.obj
      [("x".toList, Json.obj [(versionKey, Json.str "1".toList),
        (dependenciesKey, Json.obj
          [("x".toList, Json.obj [(versionKey, Json.str "2".toList),
            (dependenciesKey, Json.obj
              [("x".toList, Json.obj [(versionKey, Json.str "1".toList)])])])])])])])
      = Except.ok [⟨"x".toList, "1".toList⟩, ⟨"x".toList, "2".toList⟩] := by
  constructor
  · intro root l h
    unfold collect_deps at h
    injection h with h
    subst h
    refine ⟨?_, List.sorted_insertionSort depLe _⟩
    exact ((List.perm_insertionSort depLe _).nodup_iff).mpr (stInv_collectState root).1
  · decide

/-- Witness for C2: the universal clause applied to a concrete document. -/
theorem claim_C2_dedup_sorted_witness :
    ([⟨"a".toList, "1".toList⟩, ⟨"b".toList, "2".toList⟩] : List Dep).Nodup ∧
    List.Sorted depLe [⟨"a".toList, "1".toList⟩, ⟨"b".toList, "2".toList⟩] :=
  claim_C2_dedup_sorted.1
    (Json.obj [(dependenciesKey, Json.obj
      [("b".toList, Json.obj [(versionKey, Json.str "2".toList)]),
       ("a".toList, Json.obj [(versionKey, Json.str "1".toList)])])])
    _ (by decide)

/-- C3: denylist-entry classification follows the grammar: a line with no
`@` parses to `Name` of the line itself; a line starting with `@` and
containing exactly one `@` parses to `Name`; an exact candidate splits at
the last `@`, so `"foo@1.2.3"` and `"@scope/pkg@2.0.0"` parse to the
expected `Exact` entries; and an unscoped line with more than one `@`,
such as `"a@b@c"`, is invalid with the too-many-`@` reason. -/
theorem claim_C3_entry_grammar :
    (∀ l : List Char, '@' ∉ l → parse_compromised_entry l = CompEntry.Name l) ∧
    (∀ l : List Char, l.head? = some '@' → l.count '@' = 1 →
      parse_compromised_entry l = CompEntry.Name l) ∧
    parse_compromised_entry "foo@1.2.3".toList
      = CompEntry.Exact "foo".toList "1.2.3".toList ∧
    parse_compromised_entry "@scope/pkg@2.0.0".toList
      = CompEntry.Exact "@scope/pkg".toList "2.0.0".toList ∧
    parse_compromised_entry "a@b@c".toList = CompEntry.Invalid tooManyAtMsg := by
  refine ⟨?_, ?_, by decide, by decide, by decide⟩
  · intro l h
    unfold parse_compromised_entry
    rw [if_pos h]
  · intro l h1 h2
    have hmem : '@' ∈ l := by
      cases l with
      | nil => simp at h1
      | cons c rest =>
        simp only [List.head?_cons, Option.some.injEq] at h1
        subst h1
        exact List.mem_cons_self _ _
    unfold parse_compromised_entry
    rw [if_neg (not_not_intro hmem), if_pos ⟨h1, by omega⟩]

/-- Witness for C3: the two universally quantified clauses applied to the
concrete lines `"lodash"` and `"@scope/pkg"`. -/
theorem claim_C3_entry_grammar_witness :
    parse_compromised_entry "lodash".toList = CompEntry.Name "lodash".toList ∧
    parse_compromised_entry "@scope/pkg".toList
      = CompEntry.Name "@scope/pkg".toList :=
  ⟨claim_C3_entry_grammar.1 _ (by decide),
   claim_C3_entry_grammar.2.1 _ (by decide) (by decide)⟩

/-- Counterexample to C4 as stated: the line `"@foo"` does NOT fail with
"empty version part" — it starts with `@` and has fewer than two `@`, so
the code returns it as a bare scoped `Name` before ever splitting. -/
theorem claim_C4_counterexample :
    parse_compromised_entry "@foo".toList = CompEntry.Name "@foo".toList ∧
    parse_compromised_entry "@foo".toList ≠ CompEntry.Invalid emptyVersionMsg := by
  decide

/-- C4 amended: `"foo@"` fails with "Empty version part", while `"@foo"`
parses successfully as the bare name `"@foo"`. -/
theorem claim_C4_amended :
    parse_compromised_entry "foo@".toList = CompEntry.Invalid emptyVersionMsg ∧
    parse_compromised_entry "@foo".toList = CompEntry.Name "@foo".toList := by
  decide

/-- Counterexample to C5 as stated: `"foo@/bar"` does NOT fail with
"version does not start with alphanumeric" — the slash check runs first,
so it fails with "Version contains '/'". -/
theorem claim_C5_counterexample :
    parse_compromised_entry "foo@/bar".toList ≠ CompEntry.Invalid notAlnumMsg ∧
    parse_compromised_entry "foo@/bar".toList = CompEntry.Invalid slashVersionMsg := by
  decide

/-- C5 amended: `"foo@bar/baz"` fails with "Version contains '/'";
`"foo@/bar"` also fails with "Version contains '/'" because the slash
check precedes the leading-alphanumeric check; a slash-free version with a
non-alphanumeric first character, such as `"foo@-bar"`, fails with
"Version does not start with alphanumeric". -/
theorem claim_C5_amended :
    parse_compromised_entry "foo@bar/baz".toList = CompEntry.Invalid slashVersionMsg ∧
    parse_compromised_entry "foo@/bar".toList = CompEntry.Invalid slashVersionMsg ∧
    parse_compromised_entry "foo@-bar".toList = CompEntry.Invalid notAlnumMsg := by
  decide

/-- C6: for every successfully parsed denylist, every name appearing in a
pair of the exact set is also a member of the name set. -/
theorem claim_C6_exact_implies_name (content : List Char) (L : Lists)
    (h : parse_compromised_file content = Except.ok L) :
    ∀ n v, (n, v) ∈ L.exact → n ∈ L.names :=
  parseLinesFrom_inv (splitLines content) 0 ⟨[], []⟩ L
    (fun _ _ hm => absurd hm (List.not_mem_nil _)) h

/-- Witness for C6 on the concrete denylist text `"foo@1.2.3\nbar"`. -/
theorem claim_C6_exact_implies_name_witness :
    "foo".toList ∈
      (Lists.mk [("foo".toList, "1.2.3".toList)]
        ["bar".toList, "foo".toList]).names :=
  claim_C6_exact_implies_name "foo@1.2.3\nbar".toList _ (by rfl)
    "foo".toList "1.2.3".toList (by decide)

/-- C7: when the denylist text has an invalid line and every earlier line
is clean (skipped or valid), parsing returns the error carrying the
1-based line number of that first invalid line, its trimmed text and its
specific reason — an `Except.error`, so no `Lists` value is produced — and
the result does not depend on the lines after it (`rest` is universally
quantified). -/
theorem claim_C7_fail_fast (content : List Char) (pre : List (List Char))
    (raw : List Char) (rest : List (List Char)) (r : List Char)
    (hsplit : splitLines content = pre ++ raw :: rest)
    (hok : ∀ l ∈ pre, lineError l = none)
    (hfail : lineError raw = some r) :
    parse_compromised_file content
      = Except.error ⟨pre.length + 1, trimChars raw, r⟩ := by
  unfold parse_compromised_file
  rw [hsplit]
  obtain ⟨acc', hpre⟩ := parseLinesFrom_clean_prefix pre 0 ⟨[], []⟩ (raw :: rest) hok
  rw [hpre, parseLinesFrom_error_step hfail]
  simp

/-- Witness for C7 on the concrete denylist text
`"ok\na@b@c\nnever@seen"`: the error reports line 2 and parsing never
reaches the (also invalid) third line. -/
theorem claim_C7_fail_fast_witness :
    parse_compromised_file "ok\na@b@c\nnever@seen".toList
      = Except.error ⟨2, "a@b@c".toList, tooManyAtMsg⟩ :=
  claim_C7_fail_fast _ ["ok".toList] "a@b@c".toList ["never@seen".toList]
    tooManyAtMsg (by decide) (by decide) (by decide)

/-- C8: a node without a string `version` field contributes no entry for
itself — traversing it is exactly traversing its `"dependencies"` — and
its children can still contribute: a document whose only top-level
dependency is versionless still reports that node's grandchild. -/
theorem claim_C8_versionless_node :
    (∀ (name : List Char) (fields : List (List Char × Json)) (st : TravState),
      fieldStr versionKey fields = none →
      traverse name (Json.obj fields) st = traverseDeps fields st) ∧
    collect_deps (Json.obj [(dependenciesKey, Json.obj
      [("a".toList, Json.obj [(dependenciesKey, Json.obj
        [("b".toList, Json.obj [(versionKey, Json.str "1".toList)])])])])])
      = Except.ok [⟨"b".toList, "1".toList⟩] := by
  constructor
  · intro name fields st h
    show traverseDeps fields (recordDep name (fieldStr versionKey fields) st)
      = traverseDeps fields st
    rw [h]
    rfl
  · decide

/-- Witness for C8: the universal clause applied to a concrete versionless
object node. -/
theorem claim_C8_versionless_node_witness :
    traverse "x".toList
      (Json.obj [(dependenciesKey, Json.obj
        [("y".toList, Json.obj [(versionKey, Json.str "1".toList)])])])
      ⟨[], []⟩
      = traverseDeps
          [(dependenciesKey, Json.obj
            [("y".toList, Json.obj [(versionKey, Json.str "1".toList)])])]
          ⟨[], []⟩ :=
  claim_C8_versionless_node.1 _ _ _ rfl

/-- C9: flattening is total — `collect_deps` returns `Except.ok` on every
document; a non-object node is skipped entirely; a document with an empty
or absent `"dependencies"` mapping yields an empty flattened list; and an
empty flattened list yields zero matches against every denylist. -/
theorem claim_C9_total :
    (∀ root : Json, ∃ l, collect_deps root = Except.ok l) ∧
    (∀ (name : List Char) (node : Json) (st : TravState),
      (∀ fields, node ≠ Json.obj fields) → traverse name node st = st) ∧
    collect_deps (Json.obj [(dependenciesKey, Json.obj [])]) = Except.ok [] ∧
    collect_deps (Json.obj []) = Except.ok [] ∧
    (∀ lists : Lists, find_matches [] lists = ([], false)) := by
  refine ⟨fun root => ⟨_, rfl⟩, ?_, by decide, by decide, fun lists => rfl⟩
  intro name node st h
  cases node with
  | obj fields => exact absurd rfl (h fields)
  | null => rfl
  | bool b => rfl
  | num => rfl
  | str s => rfl
  | arr es => rfl

/-- Witness for C9: the skip clause applied to a concrete non-object node. -/
theorem claim_C9_total_witness :
    traverse "x".toList Json.null ⟨[], []⟩ = ⟨[], []⟩ :=
  claim_C9_total.2.1 "x".toList Json.null ⟨[], []⟩ (fun _ h => Json.noConfusion h)

/-- C10: the "Empty name part" branch of `parse_compromised_entry` is
unreachable — the text before the last `@` can only be empty when the
line's single `@` is its first character, and such a line was already
returned as a `Name`. -/
theorem claim_C10_empty_name_unreachable (l : List Char) :
    parse_compromised_entry l ≠ CompEntry.Invalid emptyNameMsg := by
  unfold parse_compromised_entry
  by_cases hmem : '@' ∈ l
  · rw [if_neg (not_not_intro hmem)]
    by_cases h1 : l.head? = some '@' ∧ l.count '@' < 2
    · rw [if_pos h1]
      intro h
      cases h
    · rw [if_neg h1]
      by_cases h2 : l.head? ≠ some '@' ∧ 1 < l.count '@'
      · rw [if_pos h2]
        intro h
        injection h with hr
        exact absurd hr (by decide)
      · rw [if_neg h2]
        cases hsplit : splitLastAt l with
        | none =>
          intro h
          cases h
        | some p =>
          obtain ⟨n, v⟩ := p
          obtain ⟨hl, hnv⟩ := splitLastAt_spec hsplit
          have hne : n ≠ [] := by
            intro hnil
            rw [hnil, List.nil_append] at hl
            have hhead : l.head? = some '@' := by rw [hl]; rfl
            have hcount : l.count '@' = 1 := by
              rw [hl, List.count_cons_self, List.count_eq_zero.mpr hnv]
            exact h1 ⟨hhead, by omega⟩
          show (if n = [] then CompEntry.Invalid emptyNameMsg
            else if v = [] then CompEntry.Invalid emptyVersionMsg
            else if '/' ∈ v then CompEntry.Invalid slashVersionMsg
            else if ¬ versionStartsAlnum v then CompEntry.Invalid notAlnumMsg
            else CompEntry.Exact n v) ≠ CompEntry.Invalid emptyNameMsg
          rw [if_neg hne]
          intro h
          by_cases hv : v = []
          · rw [if_pos hv] at h
            injection h with hr
            exact absurd hr (by decide)
          · rw [if_neg hv] at h
            by_cases hs : '/' ∈ v
            · rw [if_pos hs] at h
              injection h with hr
              exact absurd hr (by decide)
            · rw [if_neg hs] at h
              by_cases ha : versionStartsAlnum v = true
              · rw [if_neg (not_not_intro ha)] at h
                exact CompEntry.noConfusion h
              · rw [if_pos ha] at h
                injection h with hr
                exact absurd hr (by decide)
  · rw [if_pos hmem]
    intro h
    cases h

/-- Witness for C10 at the concrete line `"@scope/pkg@1.0.0"`. -/
theorem claim_C10_empty_name_unreachable_witness :
    parse_compromised_entry "@scope/pkg@1.0.0".toList
      ≠ CompEntry.Invalid emptyNameMsg :=
  claim_C10_empty_name_unreachable _

end NpmScan
